import Mathlib

/-!
# Verification of the random-Fourier-features MNIST classifier

A shallow embedding of the notebook `random_fourier_features.ipynb`.
The notebook's pipeline is:

* `s(x) = np.exp(1j*x)` — the complex-exponential activation;
* `one_hot(a, num_classes) = np.squeeze(np.eye(num_classes)[a.reshape(-1)])`;
* batch extraction `X = train_X[0:J]`, `Y = train_Y[0:J].T` (numpy slicing
  silently truncates to the available rows);
* `w = np.random.normal(0, sigma, (M, K))` — the random projection basis;
* `S = s(np.dot(X, w)).T` — the feature matrix;
* `Theta = (Y @ S.conj().T) @ np.linalg.inv(S @ S.conj().T + reg_param * np.identity(K))`;
* `train_pred = (np.argmax(np.real(Theta@S), axis=0) == train_y[0:J]).sum() / J`
  and `test_pred = (np.argmax(np.real(Theta@S_test), axis=0) == test_y).sum() / 10000`.

Machine floating-point arithmetic is idealised as `ℝ`/`ℂ`.  Matrices are
Mathlib matrices indexed by `Fin`.
-/

open scoped ComplexOrder
open Matrix Complex BigOperators

namespace RFF

/-- The activation `s(x) = np.exp(1j*x)` applied to a real scalar. -/
noncomputable def s (x : ℝ) : ℂ := Complex.exp (Complex.I * (x : ℂ))

/-- `one_hot(a, num_classes)` (value level, for in-range integer labels):
`np.eye(c)[a]` selects, for each sample `i`, row `a i` of the `c × c`
identity matrix, so entry `(i, j)` is `1` exactly when `a i = j`.
(`np.squeeze` only affects the array's shape, which is modelled separately
by `one_hot_shape`.) -/
def one_hot {nn : ℕ} (a : Fin nn → ℕ) (c : ℕ) : Matrix (Fin nn) (Fin c) ℝ :=
  Matrix.of fun i j => if a i = (j : ℕ) then 1 else 0

/-- `np.squeeze` on a shape: removes every axis of extent 1. -/
def npSqueeze (shape : List ℕ) : List ℕ := shape.filter (fun d => d ≠ 1)

/-- Shape of `one_hot(a, c)` for a label vector of length `nn`:
`np.eye(c)[a.reshape(-1)]` has shape `(nn, c)` and `np.squeeze` is applied
to it. -/
def one_hot_shape (nn c : ℕ) : List ℕ := npSqueeze [nn, c]

/-- Number of rows returned by the numpy slice `A[0:J]` on an array with
`N` rows: slicing past the end silently truncates. -/
def batchRows (J N : ℕ) : ℕ := min J N

/-- The numpy slice `A[0:J]` of a matrix with `N` rows. -/
def sliceRows {N M : ℕ} (A : Matrix (Fin N) (Fin M) ℝ) (J : ℕ) :
    Matrix (Fin (batchRows J N)) (Fin M) ℝ :=
  Matrix.of fun i m => A ⟨i, lt_of_lt_of_le i.2 (min_le_right J N)⟩ m

/-- The numpy slice `y[0:J]` of a label vector of length `N`. -/
def sliceLabels {N : ℕ} (y : Fin N → ℕ) (J : ℕ) : Fin (batchRows J N) → ℕ :=
  fun i => y ⟨i, lt_of_lt_of_le i.2 (min_le_right J N)⟩

/-- The feature matrix `S = s(np.dot(X, w)).T`:  project the inputs by the
basis, apply `s` elementwise, transpose. -/
noncomputable def S {n M K : ℕ} (X : Matrix (Fin n) (Fin M) ℝ)
    (w : Matrix (Fin M) (Fin K) ℝ) : Matrix (Fin K) (Fin n) ℂ :=
  ((X * w).map s)ᵀ

/-- The ridge weight matrix
`Theta = (Y @ S.conj().T) @ np.linalg.inv(S @ S.conj().T + reg_param * np.identity(K))`. -/
noncomputable def Theta {K n c : ℕ} (Sm : Matrix (Fin K) (Fin n) ℂ)
    (Y : Matrix (Fin c) (Fin n) ℂ) (lam : ℝ) : Matrix (Fin c) (Fin K) ℂ :=
  (Y * Smᴴ) * (Sm * Smᴴ + (lam : ℂ) • 1)⁻¹

/-- `np.argmax` over indices `0, …, m` of a real-valued function: the first
index attaining the maximum (on ties numpy keeps the earlier index). -/
noncomputable def argmaxAux (f : ℕ → ℝ) : ℕ → ℕ
  | 0 => 0
  | m + 1 => if f (argmaxAux f m) < f (m + 1) then m + 1 else argmaxAux f m

/-- Reduce a natural number into `Fin (c+1)`. -/
def finClamp (c : ℕ) (i : ℕ) : Fin (c + 1) := ⟨i % (c + 1), Nat.mod_lt _ (Nat.succ_pos c)⟩

/-- `np.argmax(A, axis=0)` at column `j`: the first row index of the
maximal entry of that column. -/
noncomputable def np_argmax {c n : ℕ} (A : Matrix (Fin (c + 1)) (Fin n) ℝ) (j : Fin n) :
    Fin (c + 1) :=
  finClamp c (argmaxAux (fun i => A (finClamp c i) j) c)

/-- `np.real(Th @ Sm)`: the elementwise real part of the score matrix. -/
noncomputable def realScores {c K n : ℕ} (Th : Matrix (Fin c) (Fin K) ℂ)
    (Sm : Matrix (Fin K) (Fin n) ℂ) : Matrix (Fin c) (Fin n) ℝ :=
  (Th * Sm).map Complex.re

/-- `np.argmax(np.real(Th @ Sm), axis=0)` at column `j`: the predicted
class of sample `j`. -/
noncomputable def predict {c K n : ℕ} (Th : Matrix (Fin (c + 1)) (Fin K) ℂ)
    (Sm : Matrix (Fin K) (Fin n) ℂ) (j : Fin n) : Fin (c + 1) :=
  np_argmax (realScores Th Sm) j

/-- `(pred == lab).sum()`: the number of samples whose predicted class
equals the reference label. -/
def correctCount {n c : ℕ} (pred : Fin n → Fin c) (lab : Fin n → ℕ) : ℕ :=
  (Finset.univ.filter fun j => (pred j : ℕ) = lab j).card

/-- `train_pred = (np.argmax(np.real(Theta@S), axis=0) == train_y[0:J]).sum() / J`:
the correct count is divided by the configured batch size `J`. -/
noncomputable def train_pred {c K n : ℕ} (Th : Matrix (Fin (c + 1)) (Fin K) ℂ)
    (Sm : Matrix (Fin K) (Fin n) ℂ) (y : Fin n → ℕ) (J : ℕ) : ℝ :=
  (correctCount (predict Th Sm) y : ℝ) / (J : ℝ)

/-- `test_pred = (np.argmax(np.real(Theta@S_test), axis=0) == test_y).sum() / 10000`:
the correct count is divided by the literal `10000`. -/
noncomputable def test_pred {c K n : ℕ} (Th : Matrix (Fin (c + 1)) (Fin K) ℂ)
    (Sm : Matrix (Fin K) (Fin n) ℂ) (y : Fin n → ℕ) : ℝ :=
  (correctCount (predict Th Sm) y : ℝ) / (10000 : ℝ)

/-- The one-hot label matrix fed to the solver:
`Y = train_Y[0:J].T` with `train_Y = one_hot(train_y, c)`, promoted to `ℂ`
by numpy's mixed real/complex arithmetic. -/
noncomputable def labelMatrixC {N : ℕ} (train_y : Fin N → ℕ) (c J : ℕ) :
    Matrix (Fin c) (Fin (batchRows J N)) ℂ :=
  ((sliceRows (one_hot train_y c) J)ᵀ).map (fun r : ℝ => (r : ℂ))

/-- One full run of the notebook pipeline: draw the basis, build the
training-batch and test feature matrices, solve for `Θ`, and report
training and test accuracy.  Modelled from the spec: the random source
(`np.random.normal` uses numpy's global RNG, which is outside this
repository) is modelled as an injectable deterministic generator `gen`
mapping a seed to the drawn basis matrix, per the spec's requirement that
the random source be seedable/injectable.  Everything downstream of the
drawn basis `w` follows the notebook's code. -/
noncomputable def runPipeline {N M K t : ℕ} (c : ℕ)
    (gen : ℕ → Matrix (Fin M) (Fin K) ℝ) (seed : ℕ)
    (trainX : Matrix (Fin N) (Fin M) ℝ) (train_y : Fin N → ℕ)
    (testX : Matrix (Fin t) (Fin M) ℝ) (test_y : Fin t → ℕ)
    (lam : ℝ) (J : ℕ) :
    Matrix (Fin (c + 1)) (Fin K) ℂ × ℝ × ℝ :=
  let w := gen seed
  let Sm := S (sliceRows trainX J) w
  let St := S testX w
  let Th := Theta Sm (labelMatrixC train_y (c + 1) J) lam
  (Th, train_pred Th Sm (sliceLabels train_y J) J, test_pred Th St test_y)

/-! ## Helper lemmas -/

theorem argmaxAux_le (f : ℕ → ℝ) (m : ℕ) : argmaxAux f m ≤ m := by
  induction m with
  | zero => simp [argmaxAux]
  | succ m ih =>
    simp only [argmaxAux]
    split
    · exact le_refl _
    · exact le_trans ih (Nat.le_succ m)

theorem le_argmaxAux (f : ℕ → ℝ) (m i : ℕ) (h : i ≤ m) : f i ≤ f (argmaxAux f m) := by
  induction m with
  | zero =>
    simp only [Nat.le_zero] at h
    simp [argmaxAux, h]
  | succ m ih =>
    simp only [argmaxAux]
    rcases Nat.lt_or_ge i (m + 1) with hi | hi
    · have hfi : f i ≤ f (argmaxAux f m) := ih (Nat.lt_succ_iff.mp hi)
      split
      · exact le_trans hfi (le_of_lt (by assumption))
      · exact hfi
    · have hieq : i = m + 1 := le_antisymm h hi
      subst hieq
      split
      · exact le_refl _
      · exact le_of_not_lt (by assumption)

theorem lt_argmaxAux_of_lt (f : ℕ → ℝ) (m i : ℕ) (h : i < argmaxAux f m) :
    f i < f (argmaxAux f m) := by
  induction m with
  | zero => simp [argmaxAux] at h
  | succ m ih =>
    by_cases hc : f (argmaxAux f m) < f (m + 1)
    · simp only [argmaxAux, if_pos hc] at h ⊢
      exact lt_of_le_of_lt (le_argmaxAux f m i (Nat.lt_succ_iff.mp h)) hc
    · simp only [argmaxAux, if_neg hc] at h ⊢
      exact ih h

theorem finClamp_of_lt {c i : ℕ} (h : i < c + 1) : (finClamp c i : ℕ) = i := by
  simp [finClamp, Nat.mod_eq_of_lt h]

theorem finClamp_coe {c : ℕ} (i : Fin (c + 1)) : finClamp c (i : ℕ) = i := by
  apply Fin.ext
  exact finClamp_of_lt i.2

theorem correctCount_le {n c : ℕ} (pred : Fin n → Fin c) (lab : Fin n → ℕ) :
    correctCount pred lab ≤ n := by
  calc correctCount pred lab ≤ Finset.univ.card := Finset.card_filter_le _ _
    _ = n := by simp

/-! ## C2: the feature mapper -/

/-- C2: the feature mapper computes `X · w`, applies `z ↦ exp(i·z)`
elementwise and transposes; hence entry `(k, j)` of `S` is
`exp(i · (row j of X · column k of w))`. -/
theorem S_spec {n M K : ℕ} (X : Matrix (Fin n) (Fin M) ℝ)
    (w : Matrix (Fin M) (Fin K) ℝ) (k : Fin K) (j : Fin n) :
    S X w = ((X * w).map s)ᵀ ∧
    S X w k j = Complex.exp (Complex.I * ((∑ m, X j m * w m k : ℝ) : ℂ)) := by
  refine ⟨rfl, ?_⟩
  simp [S, s, Matrix.mul_apply]

/-! ## C3: unit modulus of feature-matrix entries -/

/-- C3: every entry of the feature matrix has modulus exactly 1. -/
theorem S_unit_modulus {n M K : ℕ} (X : Matrix (Fin n) (Fin M) ℝ)
    (w : Matrix (Fin M) (Fin K) ℝ) (k : Fin K) (j : Fin n) :
    Complex.abs (S X w k j) = 1 := by
  simp [S, s, Complex.abs_exp, Complex.mul_re]

/-! ## The regularized Gram matrix and the ridge solve -/

theorem regMatrix_posDef {K n : ℕ} (Sm : Matrix (Fin K) (Fin n) ℂ) {lam : ℝ}
    (hlam : 0 < lam) : (Sm * Smᴴ + (lam : ℂ) • 1).PosDef := by
  have hdiag : ((lam : ℂ) • (1 : Matrix (Fin K) (Fin K) ℂ)).PosDef := by
    rw [Matrix.smul_one_eq_diagonal]
    exact Matrix.PosDef.diagonal fun _ => Complex.zero_lt_real.mpr hlam
  exact Matrix.PosDef.posSemidef_add (Matrix.posSemidef_self_mul_conjTranspose Sm) hdiag

theorem regMatrix_isUnit_det {K n : ℕ} (Sm : Matrix (Fin K) (Fin n) ℂ) {lam : ℝ}
    (hlam : 0 < lam) : IsUnit (Sm * Smᴴ + (lam : ℂ) • 1).det :=
  isUnit_iff_ne_zero.mpr (regMatrix_posDef Sm hlam).det_pos.ne'

theorem Theta_mul_of_isUnit {K n c : ℕ} (Sm : Matrix (Fin K) (Fin n) ℂ)
    (Y : Matrix (Fin c) (Fin n) ℂ) (lam : ℝ)
    (h : IsUnit (Sm * Smᴴ + (lam : ℂ) • 1).det) :
    Theta Sm Y lam * (Sm * Smᴴ + (lam : ℂ) • 1) = Y * Smᴴ := by
  rw [Theta, Matrix.mul_assoc, Matrix.nonsing_inv_mul _ h, Matrix.mul_one]

/-! ## C1: the ridge solver satisfies the normal equations -/

/-- C1: for every feature matrix `S`, one-hot label matrix `Y` and `λ > 0`,
the weight matrix `Θ = Y·Sᴴ·(S·Sᴴ + λ·I)⁻¹` computed by the solver
satisfies the normal equations `Θ·(S·Sᴴ + λ·I) = Y·Sᴴ`. -/
theorem Theta_normal_equations {K n c : ℕ} (Sm : Matrix (Fin K) (Fin n) ℂ)
    (Y : Matrix (Fin c) (Fin n) ℂ) (lam : ℝ) (hlam : 0 < lam) :
    Theta Sm Y lam * (Sm * Smᴴ + (lam : ℂ) • 1) = Y * Smᴴ :=
  Theta_mul_of_isUnit Sm Y lam (regMatrix_isUnit_det Sm hlam)

/-- Witness for C1 at `S = Y = (1 : Matrix (Fin 1) (Fin 1) ℂ)`, `λ = 1`. -/
theorem Theta_normal_equations_witness :
    (0:ℝ) < 1 ∧
    Theta (1 : Matrix (Fin 1) (Fin 1) ℂ) (1 : Matrix (Fin 1) (Fin 1) ℂ) 1 *
        ((1 : Matrix (Fin 1) (Fin 1) ℂ) * (1 : Matrix (Fin 1) (Fin 1) ℂ)ᴴ + ((1:ℝ) : ℂ) • 1) =
      (1 : Matrix (Fin 1) (Fin 1) ℂ) * (1 : Matrix (Fin 1) (Fin 1) ℂ)ᴴ :=
  ⟨one_pos, Theta_normal_equations 1 1 1 one_pos⟩

/-! ## C5: the predictor is a first-occurrence argmax of the real parts -/

/-- C5: for every score matrix `Θ·S`, the predicted class of column `j` is a
row index maximizing the real part, and on ties it is the lowest such
index: any row `i` with the same (maximal) real part satisfies
`predict … j ≤ i`. -/
theorem predict_argmax {c K n : ℕ} (Th : Matrix (Fin (c + 1)) (Fin K) ℂ)
    (Sm : Matrix (Fin K) (Fin n) ℂ) (j : Fin n) (i : Fin (c + 1)) :
    realScores Th Sm i j ≤ realScores Th Sm (predict Th Sm j) j ∧
    (realScores Th Sm i j = realScores Th Sm (predict Th Sm j) j →
      predict Th Sm j ≤ i) := by
  set f : ℕ → ℝ := fun i' => realScores Th Sm (finClamp c i') j with hf
  have hpred : predict Th Sm j = finClamp c (argmaxAux f c) := rfl
  have hval : (predict Th Sm j : ℕ) = argmaxAux f c := by
    rw [hpred]
    exact finClamp_of_lt (Nat.lt_succ_of_le (argmaxAux_le f c))
  have hfi : f (i : ℕ) = realScores Th Sm i j := by
    rw [hf]
    simp [finClamp_coe]
  have hfp : f (argmaxAux f c) = realScores Th Sm (predict Th Sm j) j := by
    rw [hpred]
  constructor
  · rw [← hfi, ← hfp]
    exact le_argmaxAux f c i (Nat.lt_succ_iff.mp i.2)
  · intro heq
    by_contra hlt
    push_neg at hlt
    have hlt' : (i : ℕ) < argmaxAux f c := by
      rw [← hval]
      exact hlt
    have hstrict := lt_argmaxAux_of_lt f c i hlt'
    rw [hfi, hfp] at hstrict
    exact absurd heq (ne_of_lt hstrict)

/-- Witness for C5 at `Θ = S = 0` (one class, one feature, one sample). -/
theorem predict_argmax_witness :
    realScores (0 : Matrix (Fin 1) (Fin 1) ℂ) (0 : Matrix (Fin 1) (Fin 1) ℂ) 0 0 ≤
      realScores (0 : Matrix (Fin 1) (Fin 1) ℂ) (0 : Matrix (Fin 1) (Fin 1) ℂ)
        (predict (0 : Matrix (Fin 1) (Fin 1) ℂ) (0 : Matrix (Fin 1) (Fin 1) ℂ) 0) 0 ∧
    (realScores (0 : Matrix (Fin 1) (Fin 1) ℂ) (0 : Matrix (Fin 1) (Fin 1) ℂ) 0 0 =
        realScores (0 : Matrix (Fin 1) (Fin 1) ℂ) (0 : Matrix (Fin 1) (Fin 1) ℂ)
          (predict (0 : Matrix (Fin 1) (Fin 1) ℂ) (0 : Matrix (Fin 1) (Fin 1) ℂ) 0) 0 →
      predict (0 : Matrix (Fin 1) (Fin 1) ℂ) (0 : Matrix (Fin 1) (Fin 1) ℂ) 0 ≤ 0) :=
  predict_argmax 0 0 0 0

/-! ## C4: the reported accuracies -/

/-- C4 counterexample: the test accuracy is divided by the literal `10000`,
not by the number of samples actually scored.  With a single test sample
that is predicted correctly, the code reports `1/10000`, not the correct
fraction `1/1`. -/
theorem reported_accuracy_counterexample :
    correctCount
        (predict (0 : Matrix (Fin 1) (Fin 1) ℂ) (0 : Matrix (Fin 1) (Fin 1) ℂ))
        (fun _ => 0) = 1 ∧
    test_pred (0 : Matrix (Fin 1) (Fin 1) ℂ) (0 : Matrix (Fin 1) (Fin 1) ℂ) (fun _ => 0) ≠
      (correctCount
          (predict (0 : Matrix (Fin 1) (Fin 1) ℂ) (0 : Matrix (Fin 1) (Fin 1) ℂ))
          (fun _ => 0) : ℝ) / (1 : ℝ) := by
  have hcc : correctCount
      (predict (0 : Matrix (Fin 1) (Fin 1) ℂ) (0 : Matrix (Fin 1) (Fin 1) ℂ))
      (fun _ => (0 : ℕ)) = 1 := by
    simp [correctCount, predict, np_argmax, argmaxAux, finClamp]
  refine ⟨hcc, ?_⟩
  rw [test_pred, hcc]
  norm_num

/-- C4 amended: the reported training accuracy is `count/J` and the
reported test accuracy is `count/10000`; they equal the fraction of
correctly predicted scored samples (and lie in `[0,1]`) when `J` equals
the number of scored training samples and the test set has exactly
`10000` samples. -/
theorem reported_accuracy_spec {c K n t : ℕ} (Th : Matrix (Fin (c + 1)) (Fin K) ℂ)
    (Sm : Matrix (Fin K) (Fin n) ℂ) (St : Matrix (Fin K) (Fin t) ℂ)
    (y : Fin n → ℕ) (yt : Fin t → ℕ) (J : ℕ)
    (hJ : J = n) (hn : 0 < n) (ht : t = 10000) :
    train_pred Th Sm y J = (correctCount (predict Th Sm) y : ℝ) / (n : ℝ) ∧
    0 ≤ train_pred Th Sm y J ∧ train_pred Th Sm y J ≤ 1 ∧
    test_pred Th St yt = (correctCount (predict Th St) yt : ℝ) / (t : ℝ) ∧
    0 ≤ test_pred Th St yt ∧ test_pred Th St yt ≤ 1 := by
  subst ht
  have htr : train_pred Th Sm y J = (correctCount (predict Th Sm) y : ℝ) / (n : ℝ) := by
    rw [train_pred, hJ]
  have hte : test_pred Th St yt =
      (correctCount (predict Th St) yt : ℝ) / ((10000 : ℕ) : ℝ) := by
    rw [test_pred]
    norm_num
  refine ⟨htr, ?_, ?_, hte, ?_, ?_⟩
  · rw [htr]
    exact div_nonneg (Nat.cast_nonneg _) (Nat.cast_nonneg _)
  · rw [htr]
    rw [div_le_one (by exact_mod_cast hn)]
    exact_mod_cast correctCount_le _ _
  · rw [hte]
    exact div_nonneg (Nat.cast_nonneg _) (Nat.cast_nonneg _)
  · rw [hte]
    rw [div_le_one (by norm_num)]
    exact_mod_cast correctCount_le _ _

/-- Witness for the amended C4 with one training sample (`J = 1`) and a
`10000`-sample test set. -/
theorem reported_accuracy_spec_witness :
    (1 : ℕ) = 1 ∧ (0 : ℕ) < 1 ∧ (10000 : ℕ) = 10000 ∧
    (train_pred (0 : Matrix (Fin 1) (Fin 1) ℂ) (0 : Matrix (Fin 1) (Fin 1) ℂ) (fun _ => 0) 1 =
        (correctCount (predict (0 : Matrix (Fin 1) (Fin 1) ℂ) (0 : Matrix (Fin 1) (Fin 1) ℂ))
            (fun _ => 0) : ℝ) / ((1 : ℕ) : ℝ) ∧
      0 ≤ train_pred (0 : Matrix (Fin 1) (Fin 1) ℂ) (0 : Matrix (Fin 1) (Fin 1) ℂ) (fun _ => 0) 1 ∧
      train_pred (0 : Matrix (Fin 1) (Fin 1) ℂ) (0 : Matrix (Fin 1) (Fin 1) ℂ) (fun _ => 0) 1 ≤ 1 ∧
      test_pred (0 : Matrix (Fin 1) (Fin 1) ℂ) (0 : Matrix (Fin 1) (Fin 10000) ℂ) (fun _ => 0) =
        (correctCount (predict (0 : Matrix (Fin 1) (Fin 1) ℂ) (0 : Matrix (Fin 1) (Fin 10000) ℂ))
            (fun _ => 0) : ℝ) / ((10000 : ℕ) : ℝ) ∧
      0 ≤ test_pred (0 : Matrix (Fin 1) (Fin 1) ℂ) (0 : Matrix (Fin 1) (Fin 10000) ℂ) (fun _ => 0) ∧
      test_pred (0 : Matrix (Fin 1) (Fin 1) ℂ) (0 : Matrix (Fin 1) (Fin 10000) ℂ) (fun _ => 0) ≤ 1) :=
  ⟨rfl, one_pos, rfl,
    reported_accuracy_spec (0 : Matrix (Fin 1) (Fin 1) ℂ) (0 : Matrix (Fin 1) (Fin 1) ℂ)
      (0 : Matrix (Fin 1) (Fin 10000) ℂ) (fun _ => 0) (fun _ => 0) 1 rfl one_pos rfl⟩

/-! ## C7: no validation of the regularization scalar -/

/-- C7 counterexample: the solver performs no check on `λ`.  Called with
`λ = -1/2 < 0` it raises no error and produces a weight matrix — here, at
`S = Y = (1 : Matrix (Fin 1) (Fin 1) ℂ)`, one that satisfies the
regularized solve exactly. -/
theorem Theta_negative_lambda_counterexample :
    (-1 / 2 : ℝ) < 0 ∧
    Theta (1 : Matrix (Fin 1) (Fin 1) ℂ) (1 : Matrix (Fin 1) (Fin 1) ℂ) (-1 / 2) *
        ((1 : Matrix (Fin 1) (Fin 1) ℂ) * (1 : Matrix (Fin 1) (Fin 1) ℂ)ᴴ +
          ((-1 / 2 : ℝ) : ℂ) • 1) =
      (1 : Matrix (Fin 1) (Fin 1) ℂ) * (1 : Matrix (Fin 1) (Fin 1) ℂ)ᴴ := by
  refine ⟨by norm_num, ?_⟩
  apply Theta_mul_of_isUnit
  rw [Matrix.det_fin_one]
  simp only [Matrix.add_apply, Matrix.smul_apply, Matrix.conjTranspose_one, Matrix.mul_one,
    Matrix.one_apply_eq, smul_eq_mul, mul_one, isUnit_iff_ne_zero]
  intro hzero
  have him := congrArg Complex.re hzero
  simp [Complex.add_re, Complex.ofReal_re] at him
  norm_num at him

/-- C7 amended: the code contains no `InvalidRegularization` check; for a
negative `λ` the solver still computes
`Θ = Y·Sᴴ·(S·Sᴴ + λ·I)⁻¹`, and whenever the regularized matrix is
invertible this `Θ` satisfies the normal equations. -/
theorem Theta_no_lambda_validation {K n c : ℕ} (Sm : Matrix (Fin K) (Fin n) ℂ)
    (Y : Matrix (Fin c) (Fin n) ℂ) (lam : ℝ) (hneg : lam < 0)
    (h : IsUnit (Sm * Smᴴ + (lam : ℂ) • 1).det) :
    Theta Sm Y lam * (Sm * Smᴴ + (lam : ℂ) • 1) = Y * Smᴴ :=
  Theta_mul_of_isUnit Sm Y lam h

/-- Witness for the amended C7 at `S = Y = (1 : Matrix (Fin 1) (Fin 1) ℂ)`,
`λ = -1/2`. -/
theorem Theta_no_lambda_validation_witness :
    (-1 / 2 : ℝ) < 0 ∧
    Theta (1 : Matrix (Fin 1) (Fin 1) ℂ) (1 : Matrix (Fin 1) (Fin 1) ℂ) (-1 / 2) *
        ((1 : Matrix (Fin 1) (Fin 1) ℂ) * (1 : Matrix (Fin 1) (Fin 1) ℂ)ᴴ +
          ((-1 / 2 : ℝ) : ℂ) • 1) =
      (1 : Matrix (Fin 1) (Fin 1) ℂ) * (1 : Matrix (Fin 1) (Fin 1) ℂ)ᴴ := by
  refine ⟨by norm_num, ?_⟩
  apply Theta_no_lambda_validation _ _ _ (by norm_num)
  rw [Matrix.det_fin_one]
  simp only [Matrix.add_apply, Matrix.smul_apply, Matrix.conjTranspose_one, Matrix.mul_one,
    Matrix.one_apply_eq, smul_eq_mul, mul_one, isUnit_iff_ne_zero]
  intro hzero
  have him := congrArg Complex.re hzero
  simp [Complex.add_re, Complex.ofReal_re] at him
  norm_num at him

/-! ## C8: one-hot columns -/

/-- C8: for labels in `[0, c)`, each column of the transposed one-hot
matrix sums to 1, its entry at row `j` is 1 when `j` is the sample's
label, and 0 at every other row — i.e. exactly one entry is 1. -/
theorem one_hot_column_spec {nn c : ℕ} (a : Fin nn → ℕ) (h : ∀ i, a i < c)
    (i : Fin nn) (j : Fin c) :
    (∑ j', (one_hot a c)ᵀ j' i) = 1 ∧
    ((j : ℕ) = a i → (one_hot a c)ᵀ j i = 1) ∧
    ((j : ℕ) ≠ a i → (one_hot a c)ᵀ j i = 0) := by
  refine ⟨?_, ?_, ?_⟩
  · have hcond : ∀ j' : Fin c, (a i = (j' : ℕ)) = ((⟨a i, h i⟩ : Fin c) = j') := by
      intro j'
      simp [Fin.ext_iff]
    calc (∑ j', (one_hot a c)ᵀ j' i)
        = ∑ j' : Fin c, if (⟨a i, h i⟩ : Fin c) = j' then (1 : ℝ) else 0 := by
          apply Finset.sum_congr rfl
          intro j' _
          simp only [Matrix.transpose_apply, one_hot, Matrix.of_apply, hcond]
      _ = 1 := by rw [Finset.sum_ite_eq]; simp
  · intro hj
    simp [one_hot, hj.symm]
  · intro hj
    simp only [Matrix.transpose_apply, one_hot, Matrix.of_apply]
    rw [if_neg (fun hh => hj hh.symm)]

/-- Witness for C8: labels `(1)` over two classes; column 0 of the
transposed one-hot matrix. -/
theorem one_hot_column_spec_witness :
    (∑ j', (one_hot (fun _ : Fin 1 => 1) 2)ᵀ j' 0) = 1 ∧
    (((0 : Fin 2) : ℕ) = (fun _ : Fin 1 => 1) 0 → (one_hot (fun _ : Fin 1 => 1) 2)ᵀ 0 0 = 1) ∧
    (((0 : Fin 2) : ℕ) ≠ (fun _ : Fin 1 => 1) 0 → (one_hot (fun _ : Fin 1 => 1) 2)ᵀ 0 0 = 0) :=
  one_hot_column_spec (fun _ => 1) (fun _ => by norm_num) 0 0

/-! ## C9: the squeeze collapses the one-sample one-hot matrix -/

/-- C9: for a label vector of length 1 (and more than one class),
`np.squeeze` collapses the `1 × c` one-hot result to a one-dimensional
vector of length `c`, breaking the documented two-dimensional
`(num_samples, num_classes)` shape. -/
theorem one_hot_shape_single (c : ℕ) (hc : c ≠ 1) :
    one_hot_shape 1 c = [c] ∧ (one_hot_shape 1 c).length = 1 ∧
    one_hot_shape 1 c ≠ [1, c] := by
  have h1 : one_hot_shape 1 c = [c] := by
    simp [one_hot_shape, npSqueeze, hc]
  refine ⟨h1, by rw [h1]; rfl, ?_⟩
  rw [h1]
  simp

/-- Witness for C9 at `num_classes = 10`. -/
theorem one_hot_shape_single_witness :
    (10 : ℕ) ≠ 1 ∧
    (one_hot_shape 1 10 = [10] ∧ (one_hot_shape 1 10).length = 1 ∧
      one_hot_shape 1 10 ≠ [1, 10]) :=
  ⟨by norm_num, one_hot_shape_single 10 (by norm_num)⟩

/-! ## C10: oversized batch size silently underreports training accuracy -/

/-- C10: when the configured batch size `J` exceeds the number `N` of
training samples, the slice `train_X[0:J]` silently yields only `N` rows
(no error), yet the training accuracy is divided by `J`, so whenever at
least one sample is predicted correctly the reported accuracy is strictly
below the fraction of correctly predicted scored samples. -/
theorem train_pred_underreports {N M K c : ℕ}
    (trainX : Matrix (Fin N) (Fin M) ℝ) (train_y : Fin N → ℕ)
    (w : Matrix (Fin M) (Fin K) ℝ) (J : ℕ)
    (Y : Matrix (Fin (c + 1)) (Fin (batchRows J N)) ℂ) (lam : ℝ)
    (hJ : N < J)
    (hc : 0 < correctCount
        (predict (Theta (S (sliceRows trainX J) w) Y lam) (S (sliceRows trainX J) w))
        (sliceLabels train_y J)) :
    train_pred (Theta (S (sliceRows trainX J) w) Y lam) (S (sliceRows trainX J) w)
        (sliceLabels train_y J) J <
      (correctCount
          (predict (Theta (S (sliceRows trainX J) w) Y lam) (S (sliceRows trainX J) w))
          (sliceLabels train_y J) : ℝ) / (batchRows J N : ℝ) := by
  have hbatch : batchRows J N < J := by
    have : batchRows J N = N := min_eq_right (le_of_lt hJ)
    omega
  have hbpos : 0 < batchRows J N :=
    lt_of_lt_of_le hc (correctCount_le _ _)
  rw [train_pred]
  apply div_lt_div_of_pos_left
  · exact_mod_cast hc
  · exact_mod_cast hbpos
  · exact_mod_cast hbatch

/-- Witness for C10: one training sample (`N = 1`), batch size `J = 2`. -/
theorem train_pred_underreports_witness :
    (1 : ℕ) < 2 ∧
    train_pred
        (Theta (S (sliceRows (0 : Matrix (Fin 1) (Fin 1) ℝ) 2) (0 : Matrix (Fin 1) (Fin 1) ℝ))
          (0 : Matrix (Fin 1) (Fin (batchRows 2 1)) ℂ) 1)
        (S (sliceRows (0 : Matrix (Fin 1) (Fin 1) ℝ) 2) (0 : Matrix (Fin 1) (Fin 1) ℝ))
        (sliceLabels (fun _ : Fin 1 => 0) 2) 2 <
      (correctCount
          (predict
            (Theta
              (S (sliceRows (0 : Matrix (Fin 1) (Fin 1) ℝ) 2) (0 : Matrix (Fin 1) (Fin 1) ℝ))
              (0 : Matrix (Fin 1) (Fin (batchRows 2 1)) ℂ) 1)
            (S (sliceRows (0 : Matrix (Fin 1) (Fin 1) ℝ) 2) (0 : Matrix (Fin 1) (Fin 1) ℝ)))
          (sliceLabels (fun _ : Fin 1 => 0) 2) : ℝ) / (batchRows 2 1 : ℝ) := by
  refine ⟨by norm_num, ?_⟩
  apply train_pred_underreports (0 : Matrix (Fin 1) (Fin 1) ℝ) (fun _ => 0)
    (0 : Matrix (Fin 1) (Fin 1) ℝ) 2 (0 : Matrix (Fin 1) (Fin (batchRows 2 1)) ℂ) 1
    (by norm_num)
  rw [correctCount, Finset.filter_true_of_mem]
  · simp [batchRows]
  · intro j _
    simp [predict, np_argmax, argmaxAux, finClamp, sliceLabels]

/-! ## C6: seeded determinism of the full pipeline -/

/-- C6: two full pipeline runs whose (injectable) random sources produce
the same basis for the given seed — in particular two runs of one seeded
generator — yield the identical weight matrix `Θ` and identical training
and test accuracies on the same input data: the pipeline downstream of
the random draw is a pure function. -/
theorem runPipeline_deterministic {N M K t : ℕ} (c : ℕ)
    (gen₁ gen₂ : ℕ → Matrix (Fin M) (Fin K) ℝ) (seed : ℕ)
    (trainX : Matrix (Fin N) (Fin M) ℝ) (train_y : Fin N → ℕ)
    (testX : Matrix (Fin t) (Fin M) ℝ) (test_y : Fin t → ℕ)
    (lam : ℝ) (J : ℕ) (h : gen₁ seed = gen₂ seed) :
    runPipeline c gen₁ seed trainX train_y testX test_y lam J =
      runPipeline c gen₂ seed trainX train_y testX test_y lam J := by
  rw [runPipeline, runPipeline, h]

/-- Witness for C6: two different generators that agree at seed `0`. -/
theorem runPipeline_deterministic_witness :
    (fun _ : ℕ => (0 : Matrix (Fin 1) (Fin 1) ℝ)) 0 =
      (fun seed : ℕ => if seed = 0 then (0 : Matrix (Fin 1) (Fin 1) ℝ) else 1) 0 ∧
    runPipeline 0 (fun _ : ℕ => (0 : Matrix (Fin 1) (Fin 1) ℝ)) 0
        (0 : Matrix (Fin 1) (Fin 1) ℝ) (fun _ => 0)
        (0 : Matrix (Fin 1) (Fin 1) ℝ) (fun _ => 0) 1 1 =
      runPipeline 0 (fun seed : ℕ => if seed = 0 then (0 : Matrix (Fin 1) (Fin 1) ℝ) else 1) 0
        (0 : Matrix (Fin 1) (Fin 1) ℝ) (fun _ => 0)
        (0 : Matrix (Fin 1) (Fin 1) ℝ) (fun _ => 0) 1 1 :=
  ⟨by simp, runPipeline_deterministic 0 _ _ 0 _ _ _ _ 1 1 (by simp)⟩

end RFF
